import Mathlib

/-!
Verification of the incremental block-wise simulation-and-resampling engine of
`tmfc_simulation/wilson_cowan_task_simulation.py`.

Signals are modelled one region at a time: a fine-grained signal is a
`List ℚ` along the time axis (the region axis of the numpy arrays is
orthogonal to every property verified here, since all slicing and
concatenation in the source acts on the time axis only).  Machine floats are
modelled as exact rationals.
-/

namespace TMFC

/-- Python/numpy nonnegative modulus `np.mod a s` on a possibly negative
integer `a` (Python `%` returns a value in `[0, s)` for `s > 0`). -/
def pyMod (a : Int) (s : Nat) : Nat := (a % (s : Int)).toNat

/-- The slice start used throughout the source for phase-continuous
resampling: `samplingRate - np.mod(idxLastT - 1, samplingRate)`
(see `HRF.resample_to_TR` and the activity resampling in
`WCTaskSim._generate_single_block`). -/
def sliceStart (off s : Nat) : Nat := s - pyMod ((off : Int) - 1) s

/-- Whether local (within-chunk) index `i` is selected by the numpy slice
`[sliceStart off s :: s]`. -/
def sel (off s : Nat) (i : Nat) : Bool :=
  decide (sliceStart off s ≤ i) && decide ((i - sliceStart off s) % s = 0)

/-- Embeds the value selection of `HRF.resample_to_TR` (and the identical
inline slicing in `_generate_single_block`): `signal[:, sliceStart :: s]`,
where `off` is the running global fine-step offset (`idxLastT` resp.
`idx_last_t`) and `s` the coarse step in fine steps. -/
def resample_to_TR (l : List α) (off s : Nat) : List α :=
  ((List.range l.length).filter (fun i => sel off s i)).filterMap (fun i => l[i]?)

/-- Embeds the time-stamp computation of `HRF.resample_to_TR`:
`t_new_idx = idxLastT + arange(L)`, sliced identically, times `dt`. -/
def resample_to_TR_t (L off s : Nat) (dt : ℚ) : List ℚ :=
  ((List.range L).filter (fun i => sel off s i)).map
    (fun i => ((off + i : Nat) : ℚ) * dt)

theorem pyMod_sub_one (off s : Nat) (hs : 0 < s) :
    pyMod ((off : Int) - 1) s = (off + s - 1) % s := by
  unfold pyMod
  have h1 : ((off : Int) - 1) % (s : Int) = (((off + s - 1 : Nat) : Int)) % (s : Int) := by
    have h2 : ((off + s - 1 : Nat) : Int) = ((off : Int) - 1) + (s : Int) := by
      have h3 : 1 ≤ off + s := by omega
      push_cast [Nat.cast_sub h3]
      ring
    rw [h2, show ((off : Int) - 1 + (s : Int)) % (s : Int) = ((off : Int) - 1 + (s : Int) * 1) % (s : Int) by ring_nf, Int.add_mul_emod_self_left]
  rw [h1, ← Int.natCast_mod]
  exact Int.toNat_natCast _

/-- The key phase characterisation: for positive step `s`, local index `i`
of a chunk starting at global offset `off` is selected iff `i ≥ 1` and the
global index `off + i` is congruent to `1` modulo `s`.  In particular a
call never selects its own first sample (local index `0`). -/
theorem sel_eq (off s i : Nat) (hs : 0 < s) :
    sel off s i = (decide (1 ≤ i) && decide ((off + i) % s = 1 % s)) := by
  have hr : (off + s - 1) % s < s := Nat.mod_lt _ hs
  obtain ⟨q, hq⟩ : ∃ q, off + s - 1 = s * q + (off + s - 1) % s :=
    ⟨(off + s - 1) / s, by rw [Nat.div_add_mod]⟩
  set r := (off + s - 1) % s with hrdef
  have hstart : sliceStart off s = s - r := by
    unfold sliceStart
    rw [pyMod_sub_one off s hs]
  have hkey : off + (s - r) = s * q + 1 := by omega
  have hmod : (off + (s - r)) % s = 1 % s := by
    rw [hkey, Nat.add_comm (s * q) 1, Nat.mul_comm s q, Nat.add_mul_mod_self_right]
  rw [sel, hstart, Bool.eq_iff_iff]
  simp only [Bool.and_eq_true, decide_eq_true_eq]
  constructor
  · rintro ⟨hge, hdvd0⟩
    obtain ⟨t, ht⟩ : s ∣ i - (s - r) := Nat.dvd_of_mod_eq_zero hdvd0
    have hi : s * t + (s - r) = i := by rw [← ht]; omega
    have h2 : off + i = 1 + s * (q + t) := by
      rw [← hi, show off + (s * t + (s - r)) = off + (s - r) + s * t by ring, hkey,
        Nat.mul_add]
      ring
    refine ⟨by omega, ?_⟩
    rw [h2, Nat.add_mul_mod_self_left]
  · rintro ⟨h1, hph⟩
    have hmodeq : Nat.ModEq s (off + (s - r)) (off + i) := by
      unfold Nat.ModEq
      rw [hmod, hph]
    have hii : Nat.ModEq s (s - r) i := Nat.ModEq.add_left_cancel' off hmodeq
    have hge : s - r ≤ i := by
      by_contra hlt
      push_neg at hlt
      have hdvd : s ∣ (s - r) - i := (Nat.modEq_iff_dvd' (Nat.le_of_lt hlt)).mp hii.symm
      have hs' : s ≤ (s - r) - i := Nat.le_of_dvd (by omega) hdvd
      omega
    have hdvd : s ∣ i - (s - r) := (Nat.modEq_iff_dvd' hge).mp hii
    exact ⟨hge, Nat.mod_eq_zero_of_dvd hdvd⟩

theorem sel_shift (off k s : Nat) (hs : 0 < s) (hb : (off + k) % s ≠ 1 % s) :
    ∀ j, sel off s (k + j) = sel (off + k) s j := by
  intro j
  rw [sel_eq _ _ _ hs, sel_eq _ _ _ hs]
  rcases Nat.eq_zero_or_pos j with rfl | hj
  · simp [hb]
  · have h1 : 1 ≤ k + j := by omega
    have h2 : 1 ≤ j := hj
    simp [h1, h2, ← Nat.add_assoc]

/-- Phase-conditional continuity of the resampler values: splitting a chunk
at index `k` and continuing the offset gives the same selected samples as one
call, provided the global boundary index `off + k` is not itself at the
selected phase (`≡ 1 mod s`); at such a boundary the one-shot call selects
the sample but neither sub-call does. -/
theorem resample_to_TR_append (l₁ l₂ : List α) (off s : Nat) (hs : 0 < s)
    (hb : (off + l₁.length) % s ≠ 1 % s) :
    resample_to_TR (l₁ ++ l₂) off s =
      resample_to_TR l₁ off s ++ resample_to_TR l₂ (off + l₁.length) s := by
  unfold resample_to_TR
  rw [List.length_append, List.range_add, List.filter_append, List.filterMap_append]
  congr 1
  · -- the first sub-call: selected indices are below `l₁.length`
    apply List.filterMap_congr
    intro i hi
    have hik : i < l₁.length := by
      have := List.mem_filter.mp hi
      exact List.mem_range.mp this.1
    exact List.getElem?_append_left hik
  · -- the second sub-call: shift indices by `l₁.length`
    rw [List.filter_map, List.filterMap_map]
    have hfil : (List.range l₂.length).filter ((sel off s) ∘ (l₁.length + ·)) =
        (List.range l₂.length).filter (sel (off + l₁.length) s) :=
      List.filter_congr (fun j _ => sel_shift off l₁.length s hs hb j)
    rw [hfil]
    apply List.filterMap_congr
    intro j _
    have h1 : (l₁ ++ l₂)[l₁.length + j]? = l₂[l₁.length + j - l₁.length]? :=
      List.getElem?_append_right (by omega)
    simpa using h1

/-- Phase-conditional continuity of the resampled time stamps. -/
theorem resample_to_TR_t_append (k m off s : Nat) (dt : ℚ) (hs : 0 < s)
    (hb : (off + k) % s ≠ 1 % s) :
    resample_to_TR_t (k + m) off s dt =
      resample_to_TR_t k off s dt ++ resample_to_TR_t m (off + k) s dt := by
  unfold resample_to_TR_t
  rw [List.range_add, List.filter_append, List.map_append]
  congr 1
  rw [List.filter_map, List.map_map]
  have hfil : (List.range m).filter ((sel off s) ∘ (k + ·)) =
      (List.range m).filter (sel (off + k) s) :=
    List.filter_congr (fun j _ => sel_shift off k s hs hb j)
  rw [hfil]
  apply List.map_congr_left
  intro j _
  simp only [Function.comp_apply]
  rw [← Nat.add_assoc]

/-- C1 (amended): resampler continuity holds for every split whose boundary
global index `off + k` is not at the selected phase (`(off + k) % s ≠ 1 % s`,
which covers all splits the engine actually performs, since those happen at
multiples of `s`): the one-call samples and time stamps equal the
concatenation of the two sub-calls with continued offsets.  At a boundary
with `(off + k) % s = 1 % s` the one-shot call selects the boundary sample
while neither sub-call does, so the claim as stated fails. -/
theorem resampler_continuity (l₁ l₂ : List ℚ) (off s : Nat) (dt : ℚ) (hs : 0 < s)
    (hb : (off + l₁.length) % s ≠ 1 % s) :
    resample_to_TR (l₁ ++ l₂) off s =
        resample_to_TR l₁ off s ++ resample_to_TR l₂ (off + l₁.length) s ∧
      resample_to_TR_t (l₁.length + l₂.length) off s dt =
        resample_to_TR_t l₁.length off s dt ++
          resample_to_TR_t l₂.length (off + l₁.length) s dt :=
  ⟨resample_to_TR_append l₁ l₂ off s hs hb,
    resample_to_TR_t_append l₁.length l₂.length off s dt hs hb⟩

/-- Witness for C1 (amended), at `l₁ = [10, 11]`, `l₂ = [12, 13]`,
`off = 0`, `s = 2`, `dt = 1`. -/
theorem resampler_continuity_witness :
    resample_to_TR ([10, 11] ++ [12, 13] : List ℚ) 0 2 =
        resample_to_TR [10, 11] 0 2 ++ resample_to_TR [12, 13] (0 + 2) 2 ∧
      resample_to_TR_t (2 + 2) 0 2 1 =
        resample_to_TR_t 2 0 2 1 ++ resample_to_TR_t 2 (0 + 2) 2 1 :=
  resampler_continuity [10, 11] [12, 13] 0 2 1 (by decide) (by decide)

/-- C1 as stated is false: for the length-4 signal `[10, 11, 12, 13]`,
step `s = 2`, offset `0` and split index `k = 3`, the one-shot call selects
the samples at global indices 1 and 3, while the split calls (offsets 0 and
3) select only index 1 — the boundary sample at global index 3 is dropped. -/
theorem resampler_continuity_counterexample :
    ¬ (resample_to_TR ([10, 11, 12, 13] : List ℚ) 0 2 =
        resample_to_TR [10, 11, 12] 0 2 ++ resample_to_TR [13] (0 + 3) 2) := by
  decide

/-! ## The hemodynamic convolution stage (`HRF` / `generate_bold_chunkwise`)

The physiological state vectors `X_BOLD, F_BOLD, Q_BOLD, V_BOLD` of the
Balloon-Windkessel integrator are bundled into one abstract state type `σ`,
and `simulateBOLD` (the repository's `boldIntegration` module, not under
`src/`, modelled from the spec contract for the Hemodynamic State
Integrator) is a parameter: a pure function taking an activity chunk and
the current physiological state and returning the BOLD chunk (one output
sample per input sample) together with the advanced state.  Sample values
live in an arbitrary type `α` with a multiplication (the input
normalization `normalize_max * activity`). -/

/-- The `HRF` instance fields touched by `bw_convolve`.  `integrated`
instruments the embedding: it records, in order, every sample passed to
`simulateBOLD` (before the fixed normalization rescale), so that theorems
can speak about which samples the hemodynamic ODE state was advanced
over. -/
structure HRFState (α σ : Type) where
  X : σ
  idxLastT : Nat
  BOLD : List α
  t_BOLD : List ℚ
  integrated : List α

/-- Fresh stage state, as built by `HRF.__init__`: zero offset, empty
output accumulators, initial physiological state `X0`. -/
def HRF.init (X0 : σ) : HRFState α σ := ⟨X0, 0, [], [], []⟩

/-- Embeds `HRF.bw_convolve`: rescale the chunk by `normalize_max`
(`normalize_input` is true in every chunkwise use), advance the
physiological state over the whole rescaled chunk via `simulateBOLD`,
resample the produced BOLD chunk at the stage's running offset, then
initialize (empty accumulator), append (`append = true`) or overwrite the
accumulated BOLD series, and advance the offset by the chunk length. -/
def bw_convolve [Mul α] (simulateBOLD : List α → σ → List α × σ)
    (normalize_max : α) (s : Nat) (dt : ℚ) (st : HRFState α σ)
    (activity : List α) (append : Bool) : HRFState α σ :=
  let scaled := activity.map (fun a => normalize_max * a)
  let res := simulateBOLD scaled st.X
  let BOLD_resampled := resample_to_TR res.1 st.idxLastT s
  let t_BOLD_resampled := resample_to_TR_t res.1.length st.idxLastT s dt
  { X := res.2
    idxLastT := st.idxLastT + scaled.length
    BOLD := if st.BOLD.length = 0 then BOLD_resampled
            else if append then st.BOLD ++ BOLD_resampled else BOLD_resampled
    t_BOLD := if st.BOLD.length = 0 then t_BOLD_resampled
              else if append then st.t_BOLD ++ t_BOLD_resampled
              else t_BOLD_resampled
    integrated := st.integrated ++ activity }

/-- The two `WCTaskSim` fields threaded through chunkwise BOLD
generation: the leftover buffer `input_rest` and the owned `HRF`
instance. -/
structure ChunkwiseState (α σ : Type) where
  input_rest : List α
  hrf : HRFState α σ

/-- Embeds one call of `WCTaskSim.generate_bold_chunkwise`: prepend the
leftover buffer (empty on the first call) to the new chunk; if the result
is strictly longer than `chunksize = TR*1000/dt` (written `cs`; integral in
every engine use, e.g. 20000 for TR = 2 s, dt = 0.1 ms), split it at the
largest multiple of `chunksize`, convolve the prefix (overwriting on the
first call, appending afterwards) and keep the remainder as the new
leftover; otherwise convolve nothing and keep everything. -/
def generate_bold_chunkwise [Mul α] (simulateBOLD : List α → σ → List α × σ)
    (X0 : σ) (cs : Nat) (normalize_max : α) (dt : ℚ)
    (st : ChunkwiseState α σ) (new : List α) (is_first : Bool) :
    ChunkwiseState α σ :=
  let input_rest := if is_first then [] else st.input_rest
  let new_exc := input_rest ++ new
  let hrf0 := if is_first then HRF.init X0 else st.hrf
  if cs < new_exc.length then
    let used_last_idxs := new_exc.length - new_exc.length % cs
    { input_rest := new_exc.drop used_last_idxs
      hrf := bw_convolve simulateBOLD normalize_max cs dt hrf0
               (new_exc.take used_last_idxs) (!is_first) }
  else
    { input_rest := new_exc, hrf := hrf0 }

/-- The chunkwise call sequence performed by `generate_full_series` for one
run: the first block's chunk is processed with `is_first = true` (seeding
the stage), every later block's chunk with `is_first = false`. -/
def run_bold_chunkwise [Mul α] (simulateBOLD : List α → σ → List α × σ)
    (X0 : σ) (cs : Nat) (normalize_max : α) (dt : ℚ)
    (chunks : List (List α)) : ChunkwiseState α σ :=
  match chunks with
  | [] => ⟨[], HRF.init X0⟩
  | c :: rest =>
      rest.foldl
        (fun st c' =>
          generate_bold_chunkwise simulateBOLD X0 cs normalize_max dt st c' false)
        (generate_bold_chunkwise simulateBOLD X0 cs normalize_max dt
          ⟨[], HRF.init X0⟩ c true)

theorem gbc_integrated_step [Mul α] (simulateBOLD : List α → σ → List α × σ)
    (X0 : σ) (cs : Nat) (nm : α) (dt : ℚ) (st : ChunkwiseState α σ) (c : List α) :
    (generate_bold_chunkwise simulateBOLD X0 cs nm dt st c false).hrf.integrated ++
      (generate_bold_chunkwise simulateBOLD X0 cs nm dt st c false).input_rest =
      st.hrf.integrated ++ (st.input_rest ++ c) := by
  simp only [generate_bold_chunkwise, bw_convolve, Bool.false_eq_true, if_false]
  split
  · simp [List.append_assoc]
  · simp

theorem gbc_integrated_first [Mul α] (simulateBOLD : List α → σ → List α × σ)
    (X0 : σ) (cs : Nat) (nm : α) (dt : ℚ) (st : ChunkwiseState α σ) (c : List α) :
    (generate_bold_chunkwise simulateBOLD X0 cs nm dt st c true).hrf.integrated ++
      (generate_bold_chunkwise simulateBOLD X0 cs nm dt st c true).input_rest = c := by
  simp only [generate_bold_chunkwise, bw_convolve, HRF.init, if_true]
  split
  · simp
  · simp

theorem foldl_gbc_integrated [Mul α] (simulateBOLD : List α → σ → List α × σ)
    (X0 : σ) (cs : Nat) (nm : α) (dt : ℚ) :
    ∀ (rest : List (List α)) (st : ChunkwiseState α σ),
      (rest.foldl
          (fun s c => generate_bold_chunkwise simulateBOLD X0 cs nm dt s c false)
          st).hrf.integrated ++
        (rest.foldl
          (fun s c => generate_bold_chunkwise simulateBOLD X0 cs nm dt s c false)
          st).input_rest =
      st.hrf.integrated ++ (st.input_rest ++ rest.flatten) := by
  intro rest
  induction rest with
  | nil => intro st; simp
  | cons c cs' ih =>
      intro st
      rw [List.foldl_cons, ih, ← List.append_assoc, gbc_integrated_step]
      simp [List.flatten_cons, List.append_assoc]

/-- C3 (amended): across any sequence of chunkwise calls, the samples fed to
the hemodynamic integrator so far, followed by the current leftover buffer,
reconstitute exactly (and in order) all samples received so far.  Hence each
sample is integrated exactly once — but the leftover tail of a call is *not*
integrated within the call that received it: it is retained unintegrated and
fed to the integrator only by the later call that absorbs it into a complete
repetition-time window. -/
theorem hemodynamic_integration_coverage [Mul α]
    (simulateBOLD : List α → σ → List α × σ) (X0 : σ) (cs : Nat) (nm : α)
    (dt : ℚ) (chunks : List (List α)) :
    (run_bold_chunkwise simulateBOLD X0 cs nm dt chunks).hrf.integrated ++
      (run_bold_chunkwise simulateBOLD X0 cs nm dt chunks).input_rest =
      chunks.flatten := by
  cases chunks with
  | nil => simp [run_bold_chunkwise, HRF.init]
  | cons c rest =>
      rw [run_bold_chunkwise, foldl_gbc_integrated]
      rw [show (generate_bold_chunkwise simulateBOLD X0 cs nm dt
          ⟨[], HRF.init X0⟩ c true).hrf.integrated ++
          ((generate_bold_chunkwise simulateBOLD X0 cs nm dt
             ⟨[], HRF.init X0⟩ c true).input_rest ++ rest.flatten) =
          ((generate_bold_chunkwise simulateBOLD X0 cs nm dt
             ⟨[], HRF.init X0⟩ c true).hrf.integrated ++
           (generate_bold_chunkwise simulateBOLD X0 cs nm dt
             ⟨[], HRF.init X0⟩ c true).input_rest) ++ rest.flatten from by
        simp [List.append_assoc]]
      rw [gbc_integrated_first]
      simp [List.flatten_cons]

theorem filterMap_getElem_length (l : List α) (idxs : List Nat)
    (h : ∀ i ∈ idxs, i < l.length) :
    (idxs.filterMap (fun i => l[i]?)).length = idxs.length := by
  induction idxs with
  | nil => simp
  | cons i is ih =>
      have hi : i < l.length := h i (List.mem_cons_self i is)
      have hrest := ih (fun j hj => h j (List.mem_cons_of_mem i hj))
      simp [List.filterMap_cons, List.getElem?_eq_getElem hi, hrest]

theorem count_phase_range (cs : Nat) (h2 : 2 ≤ cs) (off : Nat)
    (hoff : off % cs = 0) :
    ∀ m, ((List.range (m * cs)).filter
      (fun i => decide (1 ≤ i) && decide ((off + i) % cs = 1 % cs))).length = m := by
  have hpred : ∀ i,
      (decide (1 ≤ i) && decide ((off + i) % cs = 1 % cs)) = decide (i % cs = 1) := by
    intro i
    have hmod : (off + i) % cs = i % cs := by
      rw [Nat.add_mod, hoff, Nat.zero_add, Nat.mod_mod_of_dvd i (dvd_refl cs)]
    have h1 : 1 % cs = 1 := Nat.mod_eq_of_lt (by omega)
    rw [hmod, h1, Bool.eq_iff_iff]
    simp only [Bool.and_eq_true, decide_eq_true_eq]
    constructor
    · exact fun h => h.2
    · intro h
      refine ⟨?_, h⟩
      rcases Nat.eq_zero_or_pos i with rfl | hi
      · rw [Nat.zero_mod] at h
        omega
      · exact hi
  intro m
  induction m with
  | zero => simp
  | succ n ih =>
      rw [Nat.succ_mul, List.range_add, List.filter_append, List.length_append, ih]
      have hlast : ((List.range cs).map (n * cs + ·)).filter
          (fun i => decide (1 ≤ i) && decide ((off + i) % cs = 1 % cs)) =
          ((List.range cs).filter (fun j => j == 1)).map (n * cs + ·) := by
        rw [List.filter_map]
        congr 1
        apply List.filter_congr
        intro j hj
        have hjlt : j < cs := List.mem_range.mp hj
        simp only [Function.comp_apply]
        rw [hpred (n * cs + j), Bool.eq_iff_iff]
        simp only [decide_eq_true_eq, beq_iff_eq]
        rw [Nat.mul_comm n cs, Nat.mul_add_mod, Nat.mod_eq_of_lt hjlt]
      rw [hlast, List.length_map]
      have hone : ((List.range cs).filter (fun j => j == 1)).length = 1 := by
        rw [← List.countP_eq_length_filter]
        have hcount : List.count 1 (List.range cs) = 1 :=
          List.count_eq_one_of_mem (List.nodup_range cs)
            (List.mem_range.mpr (by omega))
        simpa [List.count] using hcount
      rw [hone]

/-- At an offset that is a multiple of the step (as maintained by the
chunkwise driver), resampling a whole number `m` of complete windows emits
exactly `m` coarse samples. -/
theorem resample_to_TR_length (l : List α) (off cs m : Nat) (h2 : 2 ≤ cs)
    (hoff : off % cs = 0) (hlen : l.length = m * cs) :
    (resample_to_TR l off cs).length = m := by
  unfold resample_to_TR
  rw [filterMap_getElem_length l _
    (fun i hi => List.mem_range.mp (List.mem_filter.mp hi).1)]
  rw [List.filter_congr (fun i _ => sel_eq off cs i (by omega))]
  rw [hlen]
  exact count_phase_range cs h2 off hoff m

/-- The state invariant maintained by the chunkwise BOLD driver: the
leftover never exceeds one chunk, the stage offset counts exactly the
samples already consumed out of the `T` received, the offset stays aligned
to whole windows, and every `chunksize` consumed samples have produced one
coarse BOLD sample. -/
def ChunkwiseInv (cs : Nat) (st : ChunkwiseState α σ) (T : Nat) : Prop :=
  st.input_rest.length ≤ cs ∧
  st.hrf.idxLastT + st.input_rest.length = T ∧
  st.hrf.idxLastT % cs = 0 ∧
  st.hrf.BOLD.length * cs = st.hrf.idxLastT

theorem gbc_inv_step [Mul α] (simulateBOLD : List α → σ → List α × σ)
    (hsim : ∀ a x, (simulateBOLD a x).1.length = a.length)
    (X0 : σ) (cs : Nat) (h2 : 2 ≤ cs) (nm : α) (dt : ℚ)
    (st : ChunkwiseState α σ) (T : Nat) (c : List α)
    (hinv : ChunkwiseInv cs st T) :
    ChunkwiseInv cs (generate_bold_chunkwise simulateBOLD X0 cs nm dt st c false)
      (T + c.length) := by
  obtain ⟨hle, hsum, hmod, hbold⟩ := hinv
  have hnlen : (st.input_rest ++ c).length = st.input_rest.length + c.length :=
    List.length_append _ _
  rw [generate_bold_chunkwise]
  simp only [Bool.false_eq_true, if_false, Bool.not_false]
  split
  case isTrue hgt =>
    have hcs0 : 0 < cs := by omega
    set n := (st.input_rest ++ c).length with hn
    have hdm : cs * (n / cs) + n % cs = n := Nat.div_add_mod n cs
    have hrlt : n % cs < cs := Nat.mod_lt _ hcs0
    have hused : n - n % cs = cs * (n / cs) := by omega
    have husedle : n - n % cs ≤ n := Nat.sub_le _ _
    have htake : ((st.input_rest ++ c).take (n - n % cs)).length = n - n % cs := by
      rw [List.length_take, ← hn, Nat.min_eq_left husedle]
    have hdrop : ((st.input_rest ++ c).drop (n - n % cs)).length = n % cs := by
      rw [List.length_drop, ← hn]
      omega
    rw [bw_convolve]
    simp only [ChunkwiseInv, List.length_map]
    have hreslen : (simulateBOLD
        (((st.input_rest ++ c).take (n - n % cs)).map (fun a => nm * a))
        st.hrf.X).1.length = n - n % cs := by
      rw [hsim, List.length_map, htake]
    have hboldlen : (resample_to_TR (simulateBOLD
        (((st.input_rest ++ c).take (n - n % cs)).map (fun a => nm * a))
        st.hrf.X).1 st.hrf.idxLastT cs).length = n / cs := by
      apply resample_to_TR_length _ _ _ _ h2 hmod
      rw [hreslen, hused, Nat.mul_comm]
    refine ⟨?_, ?_, ?_, ?_⟩
    · rw [hdrop]
      omega
    · rw [hdrop, htake]
      omega
    · rw [htake, hused, Nat.add_mul_mod_self_left, hmod]
    · rw [htake]
      split
      case isTrue hz =>
        have hidx : st.hrf.idxLastT = 0 := by rw [← hbold, hz, Nat.zero_mul]
        rw [hboldlen, hidx, Nat.zero_add, hused, Nat.mul_comm]
      case isFalse hz =>
        rw [if_pos (by trivial), List.length_append, hboldlen, Nat.add_mul, hbold,
          hused, Nat.mul_comm (n / cs) cs]
  case isFalse hng =>
    have hng' : (st.input_rest ++ c).length ≤ cs := Nat.not_lt.mp hng
    exact ⟨hng',
      show st.hrf.idxLastT + (st.input_rest ++ c).length = T + c.length by
        rw [hnlen]; omega,
      hmod, hbold⟩

theorem gbc_first_eq [Mul α] (simulateBOLD : List α → σ → List α × σ)
    (X0 : σ) (cs : Nat) (nm : α) (dt : ℚ) (st : ChunkwiseState α σ)
    (c : List α) :
    generate_bold_chunkwise simulateBOLD X0 cs nm dt st c true =
      generate_bold_chunkwise simulateBOLD X0 cs nm dt ⟨[], HRF.init X0⟩ c false := by
  simp [generate_bold_chunkwise, bw_convolve, HRF.init]

theorem chunkwise_init_inv (cs : Nat) (X0 : σ) :
    ChunkwiseInv (α := α) cs ⟨[], HRF.init X0⟩ 0 := by
  refine ⟨by simp [HRF.init], by simp [HRF.init], by simp [HRF.init], by simp [HRF.init]⟩

theorem foldl_gbc_inv [Mul α] (simulateBOLD : List α → σ → List α × σ)
    (hsim : ∀ a x, (simulateBOLD a x).1.length = a.length)
    (X0 : σ) (cs : Nat) (h2 : 2 ≤ cs) (nm : α) (dt : ℚ) :
    ∀ (rest : List (List α)) (st : ChunkwiseState α σ) (T : Nat),
      ChunkwiseInv cs st T →
      ChunkwiseInv cs
        (rest.foldl
          (fun s c => generate_bold_chunkwise simulateBOLD X0 cs nm dt s c false) st)
        (T + (rest.map List.length).sum) := by
  intro rest
  induction rest with
  | nil => intro st T h; simpa using h
  | cons c rs ih =>
      intro st T h
      rw [List.foldl_cons]
      have hstep := gbc_inv_step simulateBOLD hsim X0 cs h2 nm dt st T c h
      have hrec := ih _ _ hstep
      simpa [Nat.add_assoc] using hrec

/-- C2 (amended): after any chunkwise call sequence whose chunk lengths sum
to `T` fine steps, the leftover buffer has at most `chunksize` columns — with
equality reachable, since the strict `>` comparison keeps a buffer of exactly
one full window unprocessed — and the emitted coarse BOLD samples number
`(T - leftover) / chunksize`; this equals `⌊T / chunksize⌋` exactly when the
leftover is strictly shorter than `chunksize`. -/
theorem bold_chunkwise_leftover_invariant [Mul α]
    (simulateBOLD : List α → σ → List α × σ)
    (hsim : ∀ a x, (simulateBOLD a x).1.length = a.length) (X0 : σ)
    (cs : Nat) (h2 : 2 ≤ cs) (nm : α) (dt : ℚ) (chunks : List (List α)) :
    (run_bold_chunkwise simulateBOLD X0 cs nm dt chunks).input_rest.length ≤ cs ∧
    (run_bold_chunkwise simulateBOLD X0 cs nm dt chunks).hrf.BOLD.length * cs +
        (run_bold_chunkwise simulateBOLD X0 cs nm dt chunks).input_rest.length =
      (chunks.map List.length).sum ∧
    ((run_bold_chunkwise simulateBOLD X0 cs nm dt chunks).input_rest.length < cs →
      (run_bold_chunkwise simulateBOLD X0 cs nm dt chunks).hrf.BOLD.length =
        (chunks.map List.length).sum / cs) := by
  have hcs0 : 0 < cs := by omega
  have key : ChunkwiseInv cs (run_bold_chunkwise simulateBOLD X0 cs nm dt chunks)
      ((chunks.map List.length).sum) := by
    cases chunks with
    | nil => simpa using chunkwise_init_inv (α := α) cs X0
    | cons c rest =>
        rw [run_bold_chunkwise, gbc_first_eq]
        have h0 := chunkwise_init_inv (α := α) cs X0
        have h1 := gbc_inv_step simulateBOLD hsim X0 cs h2 nm dt _ 0 c h0
        have hrec := foldl_gbc_inv simulateBOLD hsim X0 cs h2 nm dt rest _ _ h1
        simpa [Nat.add_assoc] using hrec
  obtain ⟨hle, hsum, hmod, hbold⟩ := key
  refine ⟨hle, ?_, ?_⟩
  · rw [hbold]
    exact hsum
  · intro hlt
    have hT : (chunks.map List.length).sum =
        cs * (run_bold_chunkwise simulateBOLD X0 cs nm dt chunks).hrf.BOLD.length +
          (run_bold_chunkwise simulateBOLD X0 cs nm dt chunks).input_rest.length := by
      rw [Nat.mul_comm, hbold]
      exact hsum.symm
    rw [hT, Nat.mul_add_div hcs0, Nat.div_eq_of_lt hlt, Nat.add_zero]

/-- Witness for C2 (amended): `chunksize = 2`, chunks `[1,2,3]` then `[4]`
(total `T = 4`): the final leftover is `[3, 4]` (length 2 = chunksize) and
one coarse sample has been emitted. -/
theorem bold_chunkwise_leftover_invariant_witness :
    (run_bold_chunkwise (fun (a : List ℕ) (x : Unit) => (a, x)) () 2 1 1
        [[1, 2, 3], [4]]).input_rest.length ≤ 2 ∧
    (run_bold_chunkwise (fun (a : List ℕ) (x : Unit) => (a, x)) () 2 1 1
          [[1, 2, 3], [4]]).hrf.BOLD.length * 2 +
        (run_bold_chunkwise (fun (a : List ℕ) (x : Unit) => (a, x)) () 2 1 1
          [[1, 2, 3], [4]]).input_rest.length =
      (([[1, 2, 3], [4]] : List (List ℕ)).map List.length).sum ∧
    ((run_bold_chunkwise (fun (a : List ℕ) (x : Unit) => (a, x)) () 2 1 1
        [[1, 2, 3], [4]]).input_rest.length < 2 →
      (run_bold_chunkwise (fun (a : List ℕ) (x : Unit) => (a, x)) () 2 1 1
          [[1, 2, 3], [4]]).hrf.BOLD.length =
        (([[1, 2, 3], [4]] : List (List ℕ)).map List.length).sum / 2) :=
  bold_chunkwise_leftover_invariant (fun (a : List ℕ) (x : Unit) => (a, x))
    (fun _ _ => rfl) () 2 (by decide) 1 1 [[1, 2, 3], [4]]

/-- C2 as stated fails at the equality boundary: a first call carrying
exactly `chunksize = 2` samples keeps a leftover of exactly 2 columns (not
strictly fewer) and emits 0 coarse samples although `⌊T/chunksize⌋ = 1`. -/
theorem bold_chunkwise_leftover_counterexample :
    ¬ ((run_bold_chunkwise (fun (a : List ℕ) (x : Unit) => (a, x)) () 2 1 1
          [[5, 6]]).input_rest.length < 2 ∧
       (run_bold_chunkwise (fun (a : List ℕ) (x : Unit) => (a, x)) () 2 1 1
          [[5, 6]]).hrf.BOLD.length = 2 / 2) := by
  decide

/-! ## Design validation, mode resolution and the first-block gate -/

/-- Embeds the onset monotonicity validation of `WCTaskSim.__init__`
(lines 113–115): when more than one onset is given the constructor asserts
`(np.diff(onset_time_list) > 0).any()` — note `.any()`, not `.all()` —
with the message "Next onset time should be more than previous".  Returns
`true` when the assertion passes and construction proceeds. -/
def onset_monotonicity_check (onset_time_list : List ℚ) : Bool :=
  if 1 < onset_time_list.length then
    (List.zipWith (fun b a => b - a) onset_time_list.tail onset_time_list).any
      (fun d => decide (0 < d))
  else true

/-- The Design Specification invariant as the spec words it: onsets
strictly increasing. -/
def strictlyIncreasing (l : List ℚ) : Prop := List.Chain' (· < ·) l

/-- C4: the claim is right and the code is wrong.  The onset list
`[0, 5, 3]` has at least two elements and is not strictly increasing
(its last onset precedes its predecessor), yet the constructor's check
passes — `np.diff` is `[5, -2]` and `.any()` is satisfied by the first
positive difference — although the code's own assertion message ("Next
onset time should be more than previous") and the spec demand that every
consecutive difference be positive (`.all()`). -/
theorem onset_validation_code_bug :
    onset_monotonicity_check [0, 5, 3] = true ∧
      ¬ strictlyIncreasing [0, 5, 3] := by
  constructor
  · norm_num [onset_monotonicity_check]
  · simp only [strictlyIncreasing, List.chain'_cons]
    norm_num

/-- The mode flags read and written by the `bold_chunkwise` prologue of
`generate_full_series` (lines 429–437). `warned` records whether the
incompatibility message was printed.  That code path contains no `raise`
and no `assert`, so mode resolution is a total function. -/
structure BoldModeConfig where
  bold_input_ready : Bool
  append_outputs : Bool
  bold : Bool
  chunkwise : Bool
  warned : Bool
deriving DecidableEq

/-- Embeds the configuration prologue of `generate_full_series`: when
`bold_chunkwise` is requested the driver marks the bold input ready,
disables raw-output accumulation, prints the incompatibility warning
exactly when the collaborator's built-in `bold` was also requested, and
forces both `bold` and the neurolib-native `chunkwise` off; otherwise the
flags are left as they were (and no warning is printed). -/
def resolve_bold_modes (bold_chunkwise : Bool) (cfg : BoldModeConfig) :
    BoldModeConfig :=
  if bold_chunkwise then
    { bold_input_ready := true
      append_outputs := false
      bold := false
      chunkwise := false
      warned := cfg.bold }
  else
    { cfg with warned := false }

/-- C7: requesting chunkwise BOLD generation together with the built-in
bold mode is resolved, not raised: the warning fires, built-in bold is
disabled, and chunkwise generation takes precedence (the bold input is
marked ready).  `resolve_bold_modes` is total — this path of the source
contains no raise. -/
theorem chunkwise_precedence_over_builtin_bold (cfg : BoldModeConfig)
    (h : cfg.bold = true) :
    (resolve_bold_modes true cfg).warned = true ∧
    (resolve_bold_modes true cfg).bold = false ∧
    (resolve_bold_modes true cfg).bold_input_ready = true := by
  simp [resolve_bold_modes, h]

/-- Witness for C7 at a concrete configuration with `bold = true`. -/
theorem chunkwise_precedence_over_builtin_bold_witness :
    (resolve_bold_modes true ⟨false, true, true, true, false⟩).warned = true ∧
    (resolve_bold_modes true ⟨false, true, true, true, false⟩).bold = false ∧
    (resolve_bold_modes true
        ⟨false, true, true, true, false⟩).bold_input_ready = true :=
  chunkwise_precedence_over_builtin_bold ⟨false, true, true, true, false⟩ rfl

/-- The error kind raised by schedule validation (spec section 7); in the
source these are `assert` failures. -/
inductive DesignError
  | firstRestShorterThanTR
deriving DecidableEq

/-- Chunk size as computed in `generate_full_series`: `TR * 1000 / dt`
(floats modelled as exact rationals). -/
def chunksize (TR dt : ℚ) : ℚ := TR * 1000 / dt

/-- Embeds the first-block gate of `generate_full_series` (line 445): with
chunkwise BOLD enabled, right after the first rest block the driver asserts
`wc.exc.shape[1] >= chunksize` ("First rest series should be longer than
TR").  The assertion failure is the spec's `DesignError`. -/
def first_rest_chunkwise_gate (firstBlockSamples : Nat) (TR dt : ℚ) :
    Except DesignError Unit :=
  if (firstBlockSamples : ℚ) < chunksize TR dt then
    Except.error DesignError.firstRestShorterThanTR
  else Except.ok ()

/-- C8: with chunkwise BOLD enabled, `generate_full_series` fails with the
`DesignError` iff the first rest block produced fewer fine samples than one
repetition-time window (`chunksize = TR*1000/dt`), and proceeds without
that error iff it produced at least `chunksize` samples. -/
theorem first_block_length_gate (n : Nat) (TR dt : ℚ) :
    (first_rest_chunkwise_gate n TR dt =
        Except.error DesignError.firstRestShorterThanTR ↔
      (n : ℚ) < chunksize TR dt) ∧
    (first_rest_chunkwise_gate n TR dt = Except.ok () ↔
      ¬ (n : ℚ) < chunksize TR dt) := by
  unfold first_rest_chunkwise_gate
  split <;> simp_all

/-! ## The block scheduler (`generate_full_series` sequencing and
`time_idxs_dict`)

Block labels are `Option String`: `none` stands for the reserved label
"Rest" (and for installing `Wij_rest`), `some nm` for task `nm`. -/

/-- A Design Specification as consumed by the engine: onsets, task names,
per-task durations, the rest padding durations and the `rest_before`
flag. -/
structure Design where
  onset_time_list : List ℚ
  task_name_list : List String
  duration_list : List ℚ
  rest_before : Bool
  first_duration : ℚ
  last_duration : ℚ

/-- A scheduled block: label and `[start_time, end_time]`. -/
abbrev Block := Option String × ℚ × ℚ

/-- Embeds `_generate_first_rest` (lines 356–377): with `rest_before` the
leading rest spans `[-first_duration, onset0]`, otherwise `[0, onset0]`. -/
def first_rest_block (d : Design) (o0 : ℚ) : Block :=
  if d.rest_before then (none, -d.first_duration, o0) else (none, 0, o0)

/-- Embeds the task loop of `generate_full_series` (lines 454–506) over the
`(name, onset, duration)` triples: each iteration emits the task block
`[onset, onset + duration]`; while a further task follows, an interstitial
rest block `[onset + duration, next_onset]` is emitted exactly when the gap
`next_onset - onset - duration` is strictly positive; after the last task,
`_generate_last_rest` emits a trailing rest block of `last_duration`. -/
def task_loop_blocks (last_duration : ℚ) : List (String × ℚ × ℚ) → List Block
  | [] => []
  | [(nm, o, du)] =>
      [(some nm, o, o + du), (none, o + du, o + du + last_duration)]
  | (nm, o, du) :: (nm2, o2, du2) :: rest =>
      (some nm, o, o + du) ::
        ((if 0 < o2 - o - du then [(none, o + du, o2)] else []) ++
          task_loop_blocks last_duration ((nm2, o2, du2) :: rest))

/-- The full block sequence of one run (empty when there are no onsets —
the source would fail indexing `onset_time_list[0]`). -/
def schedule (d : Design) : List Block :=
  match d.onset_time_list with
  | [] => []
  | o0 :: _ =>
      first_rest_block d o0 ::
        task_loop_blocks d.last_duration
          (d.task_name_list.zip (d.onset_time_list.zip d.duration_list))

/-- Round half to even to an integer, as Python's `round` does. -/
def roundHalfEven (q : ℚ) : ℤ :=
  if q - ⌊q⌋ < 1 / 2 then ⌊q⌋
  else if 1 / 2 < q - ⌊q⌋ then ⌊q⌋ + 1
  else if Even ⌊q⌋ then ⌊q⌋ else ⌊q⌋ + 1

/-- Python `round(x, 3)` on exact rationals. -/
def round3 (x : ℚ) : ℚ := (roundHalfEven (x * 1000) : ℚ) / 1000

theorem roundHalfEven_intCast (z : ℤ) : roundHalfEven (z : ℚ) = z := by
  unfold roundHalfEven
  rw [Int.floor_intCast, sub_self]
  norm_num

theorem round3_intCast (z : ℤ) : round3 (z : ℚ) = z := by
  unfold round3
  rw [show ((z : ℚ) * 1000) = ((z * 1000 : ℤ) : ℚ) by push_cast; ring,
    roundHalfEven_intCast]
  push_cast
  field_simp

/-- Appending an interval under a key of the time-index map
(`time_idxs_dict[label].append([...])`); all keys are pre-initialized, so
only existing keys are touched. -/
def appendInterval (m : List (Option String × List (ℚ × ℚ)))
    (k : Option String) (iv : ℚ × ℚ) :
    List (Option String × List (ℚ × ℚ)) :=
  m.map (fun p => if p.1 = k then (p.1, p.2 ++ [iv]) else p)

/-- Embeds the construction of `time_idxs_dict`: initialized with the
reserved rest key and one empty list per task-matrix key (constructor,
lines 137–139), then, in block order, each block's
`[round(start, 3), round(end, 3)]` is appended under its label. -/
def time_idxs_dict (taskKeys : List String) (blocks : List Block) :
    List (Option String × List (ℚ × ℚ)) :=
  blocks.foldl
    (fun m b => appendInterval m b.1 (round3 b.2.1, round3 b.2.2))
    ((none, []) :: taskKeys.map (fun k => (some k, [])))

/-- C9: the design with one task "A" at onset 2 s, duration 3 s,
`first_duration = 6`, `last_duration = 8`, `rest_before = true` produces
exactly the three blocks Rest `[-6, 2]`, A `[2, 5]`, Rest `[5, 13]`, in
that order, and the time-index map `{Rest ↦ [[-6, 2], [5, 13]],
A ↦ [[2, 5]]}` (`none` is the reserved label "Rest"). -/
theorem single_task_scenario :
    schedule ⟨[2], [("A")], [3], true, 6, 8⟩ =
        [(none, -6, 2), (some ("A"), 2, 5), (none, 5, 13)] ∧
      time_idxs_dict [("A")] (schedule ⟨[2], [("A")], [3], true, 6, 8⟩) =
        [(none, [(-6, 2), (5, 13)]), (some ("A"), [(2, 5)])] := by
  have hsched : schedule ⟨[2], [("A")], [3], true, 6, 8⟩ =
      [(none, -6, 2), (some ("A"), 2, 5), (none, 5, 13)] := by
    simp [schedule, first_rest_block, task_loop_blocks]
    norm_num
  refine ⟨hsched, ?_⟩
  rw [hsched]
  have r2 : round3 2 = 2 := by
    rw [show (2 : ℚ) = ((2 : ℤ) : ℚ) by norm_num, round3_intCast]
  have r5 : round3 5 = 5 := by
    rw [show (5 : ℚ) = ((5 : ℤ) : ℚ) by norm_num, round3_intCast]
  have r13 : round3 13 = 13 := by
    rw [show (13 : ℚ) = ((13 : ℤ) : ℚ) by norm_num, round3_intCast]
  have rm6 : round3 (-6) = -6 := by
    rw [show (-6 : ℚ) = ((-6 : ℤ) : ℚ) by norm_num, round3_intCast]
  simp [time_idxs_dict, appendInterval, r2, r5, r13, rm6]

/-- C3 as stated is false: with `chunksize = 2` and a first call delivering
`[1, 2, 3]`, the integrator (here instantiated so that its state accumulates
exactly the samples it has been given) is advanced over `[1, 2]` only; the
stored leftover `[3]` has not been integrated within that call — it is
re-fed (for integration, not only resampling) by the next call. -/
theorem hemodynamic_integration_counterexample :
    (run_bold_chunkwise (fun (a : List ℕ) (x : List ℕ) => (a, x ++ a)) [] 2 1 1
        [[1, 2, 3]]).hrf.X = [1, 2] ∧
      (run_bold_chunkwise (fun (a : List ℕ) (x : List ℕ) => (a, x ++ a)) [] 2 1 1
        [[1, 2, 3]]).hrf.integrated = [1, 2] ∧
      (run_bold_chunkwise (fun (a : List ℕ) (x : List ℕ) => (a, x ++ a)) [] 2 1 1
        [[1, 2, 3]]).input_rest = [3] := by
  decide

/-! ## Coupling matrices: the in-place matrix swap and the synaptic
activity derivation

`_generate_single_block` installs a block's matrix by reference
(`wc.params['Cmat'] = Cmat`) and then calls
`np.fill_diagonal(wc.params['Cmat'], 0)`, which mutates the caller's array
object in place.  The synaptic derivation `generate_neuronal_oscill`
instead reads `wc.Cmat` — the array object handed to the `WCModel`
constructor (line 97: always `Wij_rest`), which neurolib stores as a plain
Python attribute at construction; assigning the dict entry
`wc.params['Cmat']` does not rebind that attribute.  `MatStore` tracks the
current contents of each constructor-supplied array object. -/

/-- Square rational matrices over `n` regions. -/
abbrev Mat (n : Nat) := Matrix (Fin n) (Fin n) ℚ

/-- Regions × time activity matrices. -/
abbrev Act (n T : Nat) := Matrix (Fin n) (Fin T) ℚ

/-- `np.fill_diagonal(M, 0)`: the contents of the array after zeroing its
diagonal in place. -/
def zeroDiag (M : Mat n) : Mat n :=
  Matrix.of fun i j => if i = j then 0 else M i j

/-- Current contents of the coupling-matrix array objects supplied to the
constructor: the rest matrix object and one object per task name. -/
structure MatStore (n : Nat) where
  Wij_rest : Mat n
  Wij_task : String → Mat n

/-- The contents of the object a block reference denotes (`none` = the
rest matrix object). -/
def MatStore.get (st : MatStore n) : Option String → Mat n
  | none => st.Wij_rest
  | some k => st.Wij_task k

/-- Embeds the matrix swap of `_generate_single_block` (lines 296–297):
after `wc.params['Cmat'] = Cmat; np.fill_diagonal(wc.params['Cmat'], 0)`
the referenced object — and only it — holds its old contents with the
diagonal zeroed. -/
def installCmat (st : MatStore n) (r : Option String) : MatStore n :=
  match r with
  | none => { st with Wij_rest := zeroDiag st.Wij_rest }
  | some k =>
      { st with
        Wij_task := fun q => if q = k then zeroDiag (st.Wij_task q) else st.Wij_task q }

/-- The in-place installs performed over a run, in block order (the first
component of each scheduled `Block`). -/
def runInstalls (st : MatStore n) (refs : List (Option String)) : MatStore n :=
  refs.foldl installCmat st

theorem zeroDiag_idem (M : Mat n) : zeroDiag (zeroDiag M) = zeroDiag M := by
  ext i j
  by_cases h : i = j <;> simp [zeroDiag, h]

theorem get_installCmat (st : MatStore n) (r q : Option String) :
    (installCmat st r).get q =
      if q = r then zeroDiag (st.get q) else st.get q := by
  cases r with
  | none => cases q <;> simp [installCmat, MatStore.get]
  | some k =>
      cases q with
      | none => simp [installCmat, MatStore.get]
      | some k' =>
          by_cases hk : k' = k <;> simp [installCmat, MatStore.get, hk]

theorem get_runInstalls (st : MatStore n) (refs : List (Option String))
    (r : Option String) :
    (runInstalls st refs).get r =
      if r ∈ refs then zeroDiag (st.get r) else st.get r := by
  induction refs generalizing st with
  | nil => simp [runInstalls]
  | cons x xs ih =>
      rw [runInstalls, List.foldl_cons,
        show xs.foldl installCmat (installCmat st x) =
          runInstalls (installCmat st x) xs from rfl,
        ih, get_installCmat]
      by_cases hx : r = x
      · subst hx
        simp only [List.mem_cons, true_or, if_pos, if_pos rfl]
        split <;> simp [zeroDiag_idem]
      · simp [List.mem_cons, hx]

/-- C10: installing a block's coupling matrix mutates the caller-supplied
array object in place, so after any run every constructor-supplied matrix
object that was installed at least once (its reference occurs among the
run's blocks) holds the diagonal-zeroed version of its original contents —
in particular its diagonal is permanently zero — while never-installed
objects are untouched: the constructor's matrix inputs are not treated as
read-only. -/
theorem installed_matrix_mutation (st : MatStore n)
    (refs : List (Option String)) (r : Option String) (h : r ∈ refs) :
    (runInstalls st refs).get r = zeroDiag (st.get r) ∧
      Matrix.diag ((runInstalls st refs).get r) = 0 := by
  rw [get_runInstalls, if_pos h]
  refine ⟨rfl, ?_⟩
  funext i
  simp [Matrix.diag, zeroDiag]

/-- Witness for C10: rest, task "A", rest — the task-A object's contents
are its originals with a zeroed diagonal. -/
theorem installed_matrix_mutation_witness :
    (runInstalls
        (⟨Matrix.of fun _ _ => 1, fun _ => Matrix.of fun _ _ => 2⟩ : MatStore 2)
        [none, some ("A"), none]).get (some ("A")) =
      zeroDiag ((⟨Matrix.of fun _ _ => 1,
          fun _ => Matrix.of fun _ _ => 2⟩ : MatStore 2).get (some ("A"))) ∧
      Matrix.diag ((runInstalls
        (⟨Matrix.of fun _ _ => 1, fun _ => Matrix.of fun _ _ => 2⟩ : MatStore 2)
        [none, some ("A"), none]).get (some ("A"))) = 0 :=
  installed_matrix_mutation _ [none, some ("A"), none] (some ("A"))
    (by simp)

/-- The four fixed Wilson-Cowan coupling parameters read by the synaptic
activity derivation (`wc.params['c_excexc']` etc.). -/
structure WCCouplingParams where
  c_excexc : ℚ
  c_excinh : ℚ
  c_inhexc : ℚ
  c_inhinh : ℚ

/-- Embeds `generate_neuronal_oscill` (lines 515–536):
`sa = ee*exc + ei*exc + ie*inh + ii*inh + wc.Cmat @ exc`, where `wcCmat`
is the current contents of the model's `Cmat` attribute. -/
def generate_neuronal_oscill (p : WCCouplingParams) (wcCmat : Mat n)
    (exc inh : Act n T) : Act n T :=
  p.c_excexc • exc + p.c_excinh • exc + p.c_inhexc • inh + p.c_inhinh • inh +
    wcCmat * exc

/-- The synaptic activity derived for one block: `_generate_single_block`
installs the block's matrix (mutating it in place), then the derivation
reads the rest-matrix object's contents (`wc.Cmat` aliases `Wij_rest`). -/
def block_syn_act (p : WCCouplingParams) (st : MatStore n) (r : Option String)
    (exc inh : Act n T) : Act n T :=
  generate_neuronal_oscill p (installCmat st r).Wij_rest exc inh

/-- The formula claimed by the spec for C6, with `C` the coupling matrix
installed by the block's matrix swap. -/
def claimed_syn_act (p : WCCouplingParams) (C : Mat n) (exc inh : Act n T) :
    Act n T :=
  (p.c_excexc + p.c_excinh) • exc + (p.c_inhexc + p.c_inhinh) • inh + C * exc

/-- C6 (amended): the derived synaptic activity of a block equals
`(c_excexc + c_excinh)·E + (c_inhexc + c_inhinh)·I + C·E`, but with `C`
the current contents of the *rest* coupling-matrix object (the model's
constructor-time `Cmat` attribute), not the matrix installed by the
block's swap; the two agree exactly on rest blocks. -/
theorem block_syn_act_eq (p : WCCouplingParams) (st : MatStore n)
    (r : Option String) (exc inh : Act n T) :
    block_syn_act p st r exc inh =
      claimed_syn_act p (installCmat st r).Wij_rest exc inh := by
  unfold block_syn_act claimed_syn_act generate_neuronal_oscill
  rw [add_smul, add_smul]
  abel

/-- C6 as stated is false on task blocks: with rest matrix `[[0,1],[0,0]]`,
task-A matrix `[[0,2],[0,0]]`, the source parameter defaults
`(16, 15, 12, 3)`, unit excitatory activity and zero inhibitory activity,
the derived synaptic activity of the A block uses the rest coupling (top
entry 31 + 1 = 32), while the claimed formula with the installed task
matrix gives 31 + 2 = 33. -/
theorem block_syn_act_counterexample :
    ¬ (block_syn_act ⟨16, 15, 12, 3⟩
          (⟨Matrix.of !![0, 1; 0, 0],
            fun k => if k = ("A") then Matrix.of !![0, 2; 0, 0]
              else Matrix.of !![0, 0; 0, 0]⟩ : MatStore 2)
          (some ("A")) (Matrix.of !![1; 1]) (Matrix.of !![0; 0]) =
        claimed_syn_act ⟨16, 15, 12, 3⟩
          ((installCmat
            (⟨Matrix.of !![0, 1; 0, 0],
              fun k => if k = ("A") then Matrix.of !![0, 2; 0, 0]
                else Matrix.of !![0, 0; 0, 0]⟩ : MatStore 2)
            (some ("A"))).get (some ("A")))
          (Matrix.of !![1; 1]) (Matrix.of !![0; 0])) := by
  intro h
  have h00 := congrFun (congrFun h 0) 0
  simp only [block_syn_act, claimed_syn_act, generate_neuronal_oscill,
    installCmat, MatStore.get, zeroDiag, Matrix.add_apply, Matrix.smul_apply,
    Matrix.mul_apply, Fin.sum_univ_two, Matrix.of_apply] at h00
  norm_num [Matrix.cons_val_zero, Matrix.cons_val_one, Matrix.head_cons,
    Matrix.head_fin_const] at h00

/-! ## The driver block loop and the raw-buffer discard (`clear_raw`) -/

/-- Modelled from the spec: the Neural Mass Model collaborator (spec
section 6) as seen by the driver.  `κ` is the model's opaque internal
continuation state (neurolib carries it across `run(continue_run=True)`
calls); `exc`, `inh`, `t` are the externally readable raw buffers of the
most recent run — with `append_outputs = False` (forced by the driver in
chunkwise-BOLD mode and the constructor default) each run *replaces*
them.  Per the spec contract, discarding these buffers must not affect the
continuation state, which the collaborator keeps internally. -/
structure WCModelState (κ : Type) where
  cont : κ
  exc : List ℚ
  inh : List ℚ
  t : List ℚ

/-- The Simulation State owned by the driver across one run with chunkwise
BOLD: the collaborator model, the accumulated coarse activity series with
the running fine-step offset, the hemodynamic stage, and whether the first
chunkwise call has happened. -/
structure DriverState (κ σ : Type) where
  wc : WCModelState κ
  exc_series : List ℚ
  inh_series : List ℚ
  idx_last_t : Nat
  bold : ChunkwiseState ℚ σ
  started : Bool

/-- One block iteration of `generate_full_series` with chunkwise BOLD
enabled.  `dyn` is the collaborator's integration (spec-modelled): from the
continuation state and the block data (coupling matrix and duration) it
yields the new continuation state and the run's raw excitatory/inhibitory
buffers.  The iteration continues the model, resamples the fresh raw
buffers at the running offset and appends them to the coarse series,
advances the offset, feeds the fresh raw chunk to the hemodynamic stage,
clears the model's `t` buffer (the source always clears `t`, `outputs`,
`state`) and, exactly when `clear_raw`, also clears the raw `exc`/`inh`
buffers (lines 508–513). -/
def driver_block (dyn : κ → β → κ × List ℚ × List ℚ)
    (simulateBOLD : List ℚ → σ → List ℚ × σ) (X0 : σ) (cs : Nat)
    (nm dt : ℚ) (a_s : Nat) (clear_raw : Bool) (st : DriverState κ σ)
    (b : β) : DriverState κ σ :=
  let r := dyn st.wc.cont b
  { wc := { cont := r.1
            exc := if clear_raw then [] else r.2.1
            inh := if clear_raw then [] else r.2.2
            t := [] }
    exc_series := st.exc_series ++ resample_to_TR r.2.1 st.idx_last_t a_s
    inh_series := st.inh_series ++ resample_to_TR r.2.2 st.idx_last_t a_s
    idx_last_t := st.idx_last_t + r.2.1.length
    bold := generate_bold_chunkwise simulateBOLD X0 cs nm dt st.bold r.2.1
      (!st.started)
    started := true }

/-- Forgetting the externally retained raw buffers of a driver state. -/
def eraseRaw (st : DriverState κ σ) : DriverState κ σ :=
  { st with wc := { st.wc with exc := [], inh := [] } }

theorem driver_block_clear_eq (dyn : κ → β → κ × List ℚ × List ℚ)
    (simulateBOLD : List ℚ → σ → List ℚ × σ) (X0 : σ) (cs : Nat)
    (nm dt : ℚ) (a_s : Nat) (st : DriverState κ σ) (b : β) :
    driver_block dyn simulateBOLD X0 cs nm dt a_s true st b =
      eraseRaw (driver_block dyn simulateBOLD X0 cs nm dt a_s false st b) :=
  rfl

theorem driver_block_ignores_raw (dyn : κ → β → κ × List ℚ × List ℚ)
    (simulateBOLD : List ℚ → σ → List ℚ × σ) (X0 : σ) (cs : Nat)
    (nm dt : ℚ) (a_s : Nat) (c : Bool) (st : DriverState κ σ) (b : β) :
    driver_block dyn simulateBOLD X0 cs nm dt a_s c (eraseRaw st) b =
      driver_block dyn simulateBOLD X0 cs nm dt a_s c st b :=
  rfl

theorem foldl_driver_erase (dyn : κ → β → κ × List ℚ × List ℚ)
    (simulateBOLD : List ℚ → σ → List ℚ × σ) (X0 : σ) (cs : Nat)
    (nm dt : ℚ) (a_s : Nat) :
    ∀ (blocks : List β) (st : DriverState κ σ),
      blocks.foldl (driver_block dyn simulateBOLD X0 cs nm dt a_s true) st =
          blocks.foldl (driver_block dyn simulateBOLD X0 cs nm dt a_s false) st ∨
      blocks.foldl (driver_block dyn simulateBOLD X0 cs nm dt a_s true) st =
          eraseRaw
            (blocks.foldl (driver_block dyn simulateBOLD X0 cs nm dt a_s false) st) := by
  have aux : ∀ (blocks : List β) (s1 s2 : DriverState κ σ),
      (s1 = s2 ∨ s1 = eraseRaw s2) →
      (blocks.foldl (driver_block dyn simulateBOLD X0 cs nm dt a_s true) s1 =
          blocks.foldl (driver_block dyn simulateBOLD X0 cs nm dt a_s false) s2 ∨
        blocks.foldl (driver_block dyn simulateBOLD X0 cs nm dt a_s true) s1 =
          eraseRaw
            (blocks.foldl (driver_block dyn simulateBOLD X0 cs nm dt a_s false) s2)) := by
    intro blocks
    induction blocks with
    | nil =>
        intro s1 s2 h
        simpa using h
    | cons b bl ih =>
        intro s1 s2 h
        rw [List.foldl_cons, List.foldl_cons]
        apply ih
        right
        rcases h with rfl | rfl
        · exact driver_block_clear_eq dyn simulateBOLD X0 cs nm dt a_s _ b
        · rw [driver_block_ignores_raw]
          exact driver_block_clear_eq dyn simulateBOLD X0 cs nm dt a_s _ b
  exact fun blocks st => aux blocks st st (Or.inl rfl)

/-- C5: with `clear_raw = true` the driver run differs from the
`clear_raw = false` run only in the externally retained raw buffers: after
any block sequence the accumulated coarse activity series, the running
offset, the entire hemodynamic stage state (physiological state, leftover
buffer, BOLD accumulators) and the model's internal continuation state are
identical — every subsequent block therefore continues integration from the
same carried state. -/
theorem clear_raw_frame (dyn : κ → β → κ × List ℚ × List ℚ)
    (simulateBOLD : List ℚ → σ → List ℚ × σ) (X0 : σ) (cs : Nat)
    (nm dt : ℚ) (a_s : Nat) (blocks : List β) (init : DriverState κ σ) :
    (blocks.foldl (driver_block dyn simulateBOLD X0 cs nm dt a_s true)
        init).wc.cont =
      (blocks.foldl (driver_block dyn simulateBOLD X0 cs nm dt a_s false)
        init).wc.cont ∧
    (blocks.foldl (driver_block dyn simulateBOLD X0 cs nm dt a_s true)
        init).exc_series =
      (blocks.foldl (driver_block dyn simulateBOLD X0 cs nm dt a_s false)
        init).exc_series ∧
    (blocks.foldl (driver_block dyn simulateBOLD X0 cs nm dt a_s true)
        init).inh_series =
      (blocks.foldl (driver_block dyn simulateBOLD X0 cs nm dt a_s false)
        init).inh_series ∧
    (blocks.foldl (driver_block dyn simulateBOLD X0 cs nm dt a_s true)
        init).idx_last_t =
      (blocks.foldl (driver_block dyn simulateBOLD X0 cs nm dt a_s false)
        init).idx_last_t ∧
    (blocks.foldl (driver_block dyn simulateBOLD X0 cs nm dt a_s true)
        init).bold =
      (blocks.foldl (driver_block dyn simulateBOLD X0 cs nm dt a_s false)
        init).bold := by
  rcases foldl_driver_erase dyn simulateBOLD X0 cs nm dt a_s blocks init with
    h | h <;> rw [h] <;> exact ⟨rfl, rfl, rfl, rfl, rfl⟩

end TMFC
